import Mathlib

/-!
Shallow embedding of the `config_decoder` package (snapshot.go) and of the
status-draining loop of its driver program.

The Go code consumes a JSON document through `encoding/json`'s streaming
decoder.  We model the decoder's view of the input as a list of `Token`s
(`json.Token` elides commas, colons and whitespace, so those do not appear),
Go maps as association lists where assignment appends a binding and lookup
takes the *last* binding for a key, and the two channels (`cItems`,
`cErrors`) together with their `close` calls as an event trace produced by
the decoding goroutine.
-/

namespace ConfigDecoder

/-- A token as returned by the Go decoder's `Token` method: one of the four
delimiters, a string, a number, a boolean, or null. -/
inductive Token where
  | lbrace
  | rbrace
  | lbrack
  | rbrack
  | tstr (s : String)
  | tnum (n : Int)
  | tbool (b : Bool)
  | tnull
deriving DecidableEq, Repr

/-- A generic decoded JSON value (the model of Go's `interface{}` holding
decoded JSON; `obj` models `map[string]interface{}` as an association list
in which a later binding for a key shadows an earlier one). -/
inductive JVal where
  | str (s : String)
  | num (n : Int)
  | bool (b : Bool)
  | null
  | arr (elems : List JVal)
  | obj (fields : List (String × JVal))

/-- A record handed to the distribution queue: the model of one
`map[string]interface{}` item. -/
abbrev Rec := List (String × JVal)

/-- Go map read `m[k]`: the last binding for `k` wins (assignment is
modelled as appending a binding, see `mset`). -/
def mget (l : Rec) (k : String) : Option JVal :=
  match l with
  | [] => none
  | (k1, v) :: rest =>
    match mget rest k with
    | some v1 => some v1
    | none => if k1 = k then some v else none

/-- Go map assignment `m[k] = v`, modelled as appending the binding (under
`mget`'s last-binding-wins lookup this has exactly the map semantics). -/
def mset (l : Rec) (k : String) (v : JVal) : Rec := l ++ [(k, v)]

/-- `dec.More()`: true when the next token exists and is not a closing
delimiter (the Go implementation peeks at the next byte and reports
whether it is `]` or `}`). -/
def more : List Token → Bool
  | [] => false
  | t :: _ => t ≠ Token.rbrace ∧ t ≠ Token.rbrack

mutual

/-- Parse one complete JSON value from the token stream (the model of one
`dec.Decode` / value read).  `fuel` is an upper bound on the number of
recursive steps; callers always supply more fuel than the stream length,
so the `0` case is never reached on those calls. -/
def parseVal : Nat → List Token → Option (JVal × List Token)
  | 0, _ => none
  | _ + 1, [] => none
  | fuel + 1, t :: rest =>
    match t with
    | .tstr s => some (.str s, rest)
    | .tnum n => some (.num n, rest)
    | .tbool b => some (.bool b, rest)
    | .tnull => some (.null, rest)
    | .lbrack => parseElems fuel rest []
    | .lbrace => parseFields fuel rest []
    | _ => none

/-- Parse the elements of an array up to the closing `]`. -/
def parseElems : Nat → List Token → List JVal → Option (JVal × List Token)
  | 0, _, _ => none
  | _ + 1, [], _ => none
  | fuel + 1, t :: rest, acc =>
    if t = Token.rbrack then some (.arr acc, rest)
    else
      match parseVal fuel (t :: rest) with
      | some (v, r) => parseElems fuel r (acc ++ [v])
      | none => none

/-- Parse the fields of an object up to the closing `}`; a repeated key
overwrites the earlier binding, as for a Go map. -/
def parseFields : Nat → List Token → Rec → Option (JVal × List Token)
  | 0, _, _ => none
  | _ + 1, [], _ => none
  | fuel + 1, t :: rest, acc =>
    if t = Token.rbrace then some (.obj acc, rest)
    else
      match t with
      | .tstr k =>
        match parseVal fuel rest with
        | some (v, r) => parseFields fuel r (mset acc k v)
        | none => none
      | _ => none

end

mutual

/-- Token stream of a JSON value (used to build well-formed inputs). -/
def encodeVal : JVal → List Token
  | .str s => [.tstr s]
  | .num n => [.tnum n]
  | .bool b => [.tbool b]
  | .null => [.tnull]
  | .arr l => .lbrack :: (encodeElems l ++ [.rbrack])
  | .obj l => .lbrace :: (encodeFields l ++ [.rbrace])

/-- Token stream of a list of array elements (no delimiters). -/
def encodeElems : List JVal → List Token
  | [] => []
  | v :: rest => encodeVal v ++ encodeElems rest

/-- Token stream of a list of object fields (no delimiters). -/
def encodeFields : List (String × JVal) → List Token
  | [] => []
  | (k, v) :: rest => .tstr k :: (encodeVal v ++ encodeFields rest)

end

/-- `ItemTransformSpec`: which top-level fields to capture (source name to
destination name, `""` meaning reuse the source name) and the name of the
field holding the array of items.  The `Fields` Go map is modelled as an
association list with the same last-binding-wins lookup as `mget`. -/
structure ItemTransformSpec where
  Fields : List (String × String)
  ItemsField : String

/-- Lookup in the `Fields` configuration map. -/
def alookup : List (String × String) → String → Option String
  | [], _ => none
  | (k1, v) :: rest, k =>
    match alookup rest k with
    | some v1 => some v1
    | none => if k1 = k then some v else none

/-- `addMetadata`: store a captured value under `key` inside the
`config_snapshot` sub-map of `metadata`, creating that sub-map on first
use; a non-string value is an error (returned after the sub-map has been
created, mirroring the Go mutation order).  The wildcard branch mirrors
Go's type assertion `skMap.(map[string]string)`, which only the function
itself could have stored, so that branch is unreachable from the
producer. -/
def addMetadata (metadata : Rec) (key : String) (val : Token) : Rec × Option String :=
  let md := if (mget metadata "config_snapshot").isSome then metadata
            else mset metadata "config_snapshot" (.obj [])
  match val with
  | .tstr s =>
    match mget md "config_snapshot" with
    | some (.obj m) => (mset md "config_snapshot" (.obj (mset m key (.str s))), none)
    | _ => (md, none)
  | _ => (md, some "addMetadata: value is not a string type")

/-- `skip`'s loop: consume tokens keeping a balanced delimiter counter `n`,
stopping once the counter returns to zero after a token. -/
def skipAux : List Token → Int → Except String (List Token)
  | [], _ => .error "skip: EOF"
  | t :: rest, n =>
    let m : Int :=
      match t with
      | .lbrack | .lbrace => n + 1
      | .rbrack | .rbrace => n - 1
      | _ => n
    if m = 0 then .ok rest else skipAux rest m

/-- `skip`: skip the next value in the document. -/
def skipValue (ts : List Token) : Except String (List Token) := skipAux ts 0

/-- One observable action of the decoding goroutine: an item sent on
`cItems`, an error sent on `cErrors`, or the closing of one of the two
channels (the two deferred `close` calls). -/
inductive Event where
  | item (r : Rec)
  | errMsg (e : String)
  | closeErrors
  | closeItems

/-- The enrichment performed on each decoded element `v`:
`v["metadata"] = metadata` followed by copying every entry of `metadata`
into `v`'s top level. -/
def enrich (metadata : Rec) (v : Rec) : Rec :=
  metadata.foldl (fun acc kv => mset acc kv.1 kv.2) (mset v "metadata" (.obj metadata))

/-- `dec.Decode` on the model stream: parse one complete value.  The fuel
`2 * ts.length + 2` exceeds the number of parsing steps possible on a
stream of that length, so it is never exhausted. -/
def decodeValue (ts : List Token) : Option (JVal × List Token) :=
  parseVal (2 * ts.length + 2) ts

/-- Result of `decodeItems`: the events sent while splitting, the
remaining stream, the function's returned error if any, and whether the
goroutine panicked (the `v["metadata"]` assignment on the nil map left by
a failed or null `Decode`). -/
structure ItemsOut where
  events : List Event
  rest : List Token
  fail : Option String
  panicked : Bool

/-- The `for dec.More()` loop of `decodeItems`.  Each iteration decodes
one element; a decoded object is enriched and emitted; a failed decode
sends an `ElementDecodeError` on `cErrors` and then panics on the nil-map
assignment `v["metadata"] = metadata` (a JSON `null` decodes into a nil
map with no error, so it panics without sending anything).  The fuel is an
upper bound on the iteration count; the wrapper supplies more fuel than
there are tokens, and each iteration consumes at least one token. -/
def diLoop : Nat → Rec → List Token → ItemsOut
  | 0, _, ts => ⟨[], ts, none, false⟩
  | fuel + 1, metadata, ts =>
    if more ts then
      match decodeValue ts with
      | none => ⟨[.errMsg "decodeItems: decode"], ts, none, true⟩
      | some (v, r) =>
        match v with
        | .obj fields =>
          let out := diLoop fuel metadata r
          ⟨.item (enrich metadata fields) :: out.events, out.rest, out.fail, out.panicked⟩
        | .null => ⟨[], r, none, true⟩
        | _ => ⟨[.errMsg "decodeItems: decode"], r, none, true⟩
    else ⟨[], ts, none, false⟩

/-- `decodeItems`: require a `[` (consuming the token; a missing or wrong
token is the returned fatal error), then split the array. -/
def decodeItems (metadata : Rec) (ts : List Token) : ItemsOut :=
  match ts with
  | [] => ⟨[], [], some "decodeItems: begin bracket not found", false⟩
  | t :: rest =>
    if t = Token.lbrack then diLoop (rest.length + 1) metadata rest
    else ⟨[], rest, some "decodeItems: begin bracket not found", false⟩

/-- Result of the decoding goroutine: the events it sent, and whether it
ended in a panic rather than a normal return. -/
structure RunOut where
  events : List Event
  panicked : Bool

/-- The `for dec.More()` field loop of `DecodeAndSplitItems`: classify
each top-level field as the items field, a captured field, or a field to
skip; a non-string token in field-name position is only printed and the
loop continues.  Fuel as in `diLoop`. -/
def scanLoop : Nat → ItemTransformSpec → Rec → List Token → RunOut
  | 0, _, _, _ => ⟨[], false⟩
  | fuel + 1, spec, metadata, ts =>
    if more ts then
      match ts with
      | [] => ⟨[], false⟩
      | t :: rest =>
        match t with
        | .tstr f =>
          if f = spec.ItemsField then
            let out := decodeItems metadata rest
            if out.panicked then ⟨out.events, true⟩
            else
              match out.fail with
              | some e => ⟨out.events ++ [.errMsg ("DecodeAndSplitItems: " ++ e)], false⟩
              | none =>
                let cont := scanLoop fuel spec metadata out.rest
                ⟨out.events ++ cont.events, cont.panicked⟩
          else
            match alookup spec.Fields f with
            | some dest =>
              match rest with
              | [] => ⟨[.errMsg "DecodeAndSplitItems: error getting token for field"], false⟩
              | v :: rest2 =>
                if v = Token.lbrace ∨ v = Token.rbrace ∨ v = Token.lbrack ∨ v = Token.rbrack then
                  ⟨[.errMsg "DecodeAndSplitItems: value is of unexpected type json.Delim"], false⟩
                else
                  let tfv := if dest = "" then f else dest
                  let res := addMetadata metadata tfv v
                  match res.2 with
                  | some e => ⟨[.errMsg ("DecodeAndSplitItems: " ++ e)], false⟩
                  | none => scanLoop fuel spec res.1 rest2
            | none =>
              match skipValue rest with
              | .error e => ⟨[.errMsg ("DecodeAndSplitItems: " ++ e)], false⟩
              | .ok r => scanLoop fuel spec metadata r
        | _ => scanLoop fuel spec metadata rest
    else ⟨[], false⟩

/-- The metadata map as initialised by `DecodeAndSplitItems` before the
goroutine starts (`ingest_time` is `time.Now()`, a run parameter here). -/
def metadataInit (ingestTime : String) : Rec :=
  mset (mset (mset [] "event_type" (.str "config_snapshot"))
      "event_source" (.str "something_useful"))
    "ingest_time" (.str ingestTime)

/-- The decoding goroutine of `DecodeAndSplitItems`: expect `{`, run the
field loop, and on every exit path run the deferred
`close(cErrors); close(cItems)` (deferred calls also run while
panicking). -/
def DecodeAndSplitItems (spec : ItemTransformSpec) (ingestTime : String)
    (ts : List Token) : RunOut :=
  let body : RunOut :=
    match ts with
    | [] => ⟨[.errMsg "DecodeAndSplitItems: expect: EOF"], false⟩
    | t :: rest =>
      if t = Token.lbrace then scanLoop (rest.length + 1) spec (metadataInit ingestTime) rest
      else ⟨[.errMsg "DecodeAndSplitItems: expect: unexpected token"], false⟩
  ⟨body.events ++ [.closeErrors, .closeItems], body.panicked⟩

/-- The records sent to the distribution queue, in order. -/
def itemsOf (evs : List Event) : List Rec :=
  evs.filterMap fun e => match e with | .item r => some r | _ => none

/-- The errors sent on the error channel, in order. -/
def errorsOf (evs : List Event) : List String :=
  evs.filterMap fun e => match e with | .errMsg s => some s | _ => none

/-- How many times the distribution queue was closed. -/
def closeItemsCount (evs : List Event) : Nat :=
  (evs.filterMap fun e => match e with | .closeItems => some () | _ => none).length

/-- A worker status message (times and duration are run parameters, as in
Go they come from `time.Now`). -/
structure WorkerStatus where
  WorkerNum : Nat
  ItemCount : Nat
  ByteCount : Nat
  StartTime : String
  EndTime : String
  Duration : Int
  ErrorCount : Nat
  Status : String
deriving Repr, DecidableEq

/-- A writer capability: `some msg` is a failed `Write`, `none` success. -/
abbrev Writer := Rec → Option String

/-- The `NullWriter`: always succeeds. -/
def nullWriter : Writer := fun _ => none

/-- One iteration of a pool worker's receive loop: count the item, add its
formatted length to the byte count, write it, and count a failed write. -/
def writeStep (write : Writer) (fmtLen : Rec → Nat) (st : WorkerStatus) (i : Rec) :
    WorkerStatus :=
  let st1 := { st with ItemCount := st.ItemCount + 1, ByteCount := st.ByteCount + fmtLen i }
  match write i with
  | some _ => { st1 with ErrorCount := st1.ErrorCount + 1 }
  | none => st1

/-- One pool worker: process the items it receives from the queue until
the queue is closed and drained, then finalize and emit one status. -/
def runWorker (write : Writer) (fmtLen : Rec → Nat) (worker : Nat)
    (startTime endTime : String) (dur : Int) (items : List Rec) : WorkerStatus :=
  let st0 : WorkerStatus :=
    { WorkerNum := worker, ItemCount := 0, ByteCount := 0, StartTime := startTime,
      EndTime := "", Duration := 0, ErrorCount := 0, Status := "starting" }
  let st := items.foldl (writeStep write fmtLen) st0
  { st with EndTime := endTime, Duration := dur, Status := "ended normally" }

/-- The writer pool: worker `c` of `parts.length` workers processes the
sub-list `parts[c]` of the queue's items (which sub-list each worker
receives is the scheduler's choice; the constraint that `parts` joins to a
permutation of the emitted items is a hypothesis of the theorems). -/
def runPool (write : Writer) (fmtLen : Rec → Nat) (startT endT : Nat → String)
    (dur : Nat → Int) (parts : List (List Rec)) : List WorkerStatus :=
  ((List.range parts.length).zip parts).map fun p =>
    runWorker write fmtLen p.1 (startT p.1) (endT p.1) (dur p.1) p.2

/-- The driver's status-draining loop: sum of `ItemCount` over the
collected statuses. -/
def totalItems (statuses : List WorkerStatus) : Nat :=
  (statuses.map WorkerStatus.ItemCount).sum

/-! ### Association-list map lemmas -/

theorem mget_append (l1 l2 : Rec) (k : String) :
    mget (l1 ++ l2) k =
      match mget l2 k with
      | some v => some v
      | none => mget l1 k := by
  induction l1 with
  | nil => cases h : mget l2 k <;> simp [mget, h]
  | cons p l1 ih =>
    obtain ⟨k1, v1⟩ := p
    simp only [List.cons_append, mget, List.append_eq]
    rw [ih]
    cases h2 : mget l2 k <;> rfl

theorem mget_mset_same (l : Rec) (k : String) (v : JVal) :
    mget (mset l k v) k = some v := by
  simp [mset, mget_append, mget]

theorem mget_mset_ne (l : Rec) (k k1 : String) (v : JVal) (h : k1 ≠ k) :
    mget (mset l k v) k1 = mget l k1 := by
  simp only [mset, mget_append, mget]
  rw [if_neg (fun hk => h hk.symm)]

theorem foldl_mset_eq_append (md : Rec) (init : Rec) :
    md.foldl (fun acc kv => mset acc kv.1 kv.2) init = init ++ md := by
  induction md generalizing init with
  | nil => simp
  | cons p md ih =>
    obtain ⟨k, v⟩ := p
    rw [List.foldl_cons, ih]
    simp [mset]

/-- The enrichment is: original fields, then the `metadata` binding, then
one binding per metadata entry (which, under last-binding-wins lookup,
overwrite same-named original fields). -/
theorem enrich_eq (metadata : Rec) (v : Rec) :
    enrich metadata v = v ++ ("metadata", JVal.obj metadata) :: metadata := by
  rw [enrich, foldl_mset_eq_append]
  simp [mset]

/-! ### Parser lemmas -/

mutual

theorem parseVal_shortens : ∀ (fuel : Nat) (ts r : List Token) (v : JVal),
    parseVal fuel ts = some (v, r) → r.length < ts.length
  | 0, ts, r, v => by simp [parseVal]
  | fuel + 1, [], r, v => by simp [parseVal]
  | fuel + 1, t :: rest, r, v => by
    cases t with
    | lbrack =>
      simp only [parseVal]
      intro h
      exact Nat.lt_succ_of_lt (parseElems_shortens fuel rest [] r v h)
    | lbrace =>
      simp only [parseVal]
      intro h
      exact Nat.lt_succ_of_lt (parseFields_shortens fuel rest [] r v h)
    | rbrace => simp [parseVal]
    | rbrack => simp [parseVal]
    | tstr s =>
      simp only [parseVal, Option.some.injEq, Prod.mk.injEq]
      rintro ⟨h1, h2⟩
      subst h2
      simp
    | tnum n =>
      simp only [parseVal, Option.some.injEq, Prod.mk.injEq]
      rintro ⟨h1, h2⟩
      subst h2
      simp
    | tbool b =>
      simp only [parseVal, Option.some.injEq, Prod.mk.injEq]
      rintro ⟨h1, h2⟩
      subst h2
      simp
    | tnull =>
      simp only [parseVal, Option.some.injEq, Prod.mk.injEq]
      rintro ⟨h1, h2⟩
      subst h2
      simp

theorem parseElems_shortens : ∀ (fuel : Nat) (ts : List Token) (acc : List JVal)
    (r : List Token) (v : JVal),
    parseElems fuel ts acc = some (v, r) → r.length < ts.length
  | 0, ts, acc, r, v => by simp [parseElems]
  | fuel + 1, [], acc, r, v => by simp [parseElems]
  | fuel + 1, t :: rest, acc, r, v => by
    simp only [parseElems]
    by_cases ht : t = Token.rbrack
    · rw [if_pos ht]
      simp only [Option.some.injEq, Prod.mk.injEq]
      rintro ⟨h1, h2⟩
      subst h2
      simp
    · rw [if_neg ht]
      cases hp : parseVal fuel (t :: rest) with
      | none => simp
      | some p =>
        obtain ⟨w, r1⟩ := p
        intro h
        exact Nat.lt_trans (parseElems_shortens fuel r1 (acc ++ [w]) r v h)
          (parseVal_shortens fuel _ r1 w hp)

theorem parseFields_shortens : ∀ (fuel : Nat) (ts : List Token) (acc : Rec)
    (r : List Token) (v : JVal),
    parseFields fuel ts acc = some (v, r) → r.length < ts.length
  | 0, ts, acc, r, v => by simp [parseFields]
  | fuel + 1, [], acc, r, v => by simp [parseFields]
  | fuel + 1, t :: rest, acc, r, v => by
    simp only [parseFields]
    by_cases ht : t = Token.rbrace
    · rw [if_pos ht]
      simp only [Option.some.injEq, Prod.mk.injEq]
      rintro ⟨h1, h2⟩
      subst h2
      simp
    · rw [if_neg ht]
      cases t with
      | tstr k =>
        cases hp : parseVal fuel rest with
        | none => simp
        | some p =>
          obtain ⟨w, r1⟩ := p
          intro h
          have h1 := parseFields_shortens fuel r1 (mset acc k w) r v h
          have h2 := parseVal_shortens fuel rest r1 w hp
          simp only [List.length_cons]
          omega
      | lbrace => simp
      | rbrace => simp at ht
      | lbrack => simp
      | rbrack => simp
      | tnum n => simp
      | tbool b => simp
      | tnull => simp

end

/-! ### Encoding lemmas -/

theorem encodeVal_head (v : JVal) :
    ∃ t ts2, encodeVal v = t :: ts2 ∧ t ≠ Token.rbrack ∧ t ≠ Token.rbrace := by
  cases v <;> simp [encodeVal]

theorem encodeVal_length_pos (v : JVal) : 1 ≤ (encodeVal v).length := by
  obtain ⟨t, ts2, he, -, -⟩ := encodeVal_head v
  simp [he]

mutual

theorem parseVal_encode : ∀ (v : JVal) (rest : List Token) (fuel : Nat),
    (encodeVal v).length ≤ fuel →
    parseVal fuel (encodeVal v ++ rest) = some (v, rest)
  | .str s, rest, fuel => by
    cases fuel with
    | zero => intro hf; simp [encodeVal] at hf
    | succ f => intro hf; simp [encodeVal, parseVal]
  | .num n, rest, fuel => by
    cases fuel with
    | zero => intro hf; simp [encodeVal] at hf
    | succ f => intro hf; simp [encodeVal, parseVal]
  | .bool b, rest, fuel => by
    cases fuel with
    | zero => intro hf; simp [encodeVal] at hf
    | succ f => intro hf; simp [encodeVal, parseVal]
  | .null, rest, fuel => by
    cases fuel with
    | zero => intro hf; simp [encodeVal] at hf
    | succ f => intro hf; simp [encodeVal, parseVal]
  | .arr l, rest, fuel => by
    cases fuel with
    | zero => intro hf; simp [encodeVal] at hf
    | succ f =>
      intro hf
      simp only [encodeVal, List.length_cons, List.length_append,
        List.length_singleton] at hf
      have hb : (encodeElems l).length + 1 ≤ f := by omega
      simp only [encodeVal, List.cons_append, parseVal, List.append_assoc,
        List.singleton_append, List.nil_append]
      rw [parseElems_encode l rest [] f hb]
      simp
  | .obj l, rest, fuel => by
    cases fuel with
    | zero => intro hf; simp [encodeVal] at hf
    | succ f =>
      intro hf
      simp only [encodeVal, List.length_cons, List.length_append,
        List.length_singleton] at hf
      have hb : (encodeFields l).length + 1 ≤ f := by omega
      simp only [encodeVal, List.cons_append, parseVal, List.append_assoc,
        List.singleton_append, List.nil_append]
      rw [parseFields_encode l rest [] f hb]
      simp

theorem parseElems_encode : ∀ (l : List JVal) (rest : List Token)
    (acc : List JVal) (fuel : Nat),
    (encodeElems l).length + 1 ≤ fuel →
    parseElems fuel (encodeElems l ++ Token.rbrack :: rest) acc =
      some (.arr (acc ++ l), rest)
  | [], rest, acc, fuel => by
    cases fuel with
    | zero => intro hf; omega
    | succ f =>
      intro hf
      simp [encodeElems, parseElems]
  | v :: l, rest, acc, fuel => by
    cases fuel with
    | zero => intro hf; omega
    | succ f =>
      intro hf
      simp only [encodeElems, List.length_append] at hf
      have hv := encodeVal_length_pos v
      obtain ⟨t, ts2, he, ht1, ht2⟩ := encodeVal_head v
      have hsplit : (encodeVal v ++ encodeElems l) ++ Token.rbrack :: rest =
          t :: (ts2 ++ (encodeElems l ++ Token.rbrack :: rest)) := by
        simp [he]
      rw [encodeElems, hsplit]
      simp only [parseElems, if_neg ht1]
      have hback : t :: (ts2 ++ (encodeElems l ++ Token.rbrack :: rest)) =
          encodeVal v ++ (encodeElems l ++ Token.rbrack :: rest) := by
        simp [he]
      rw [hback, parseVal_encode v _ f (by omega)]
      show parseElems f (encodeElems l ++ Token.rbrack :: rest) (acc ++ [v]) =
        some (JVal.arr (acc ++ v :: l), rest)
      rw [parseElems_encode l rest (acc ++ [v]) f (by omega)]
      simp

theorem parseFields_encode : ∀ (l : List (String × JVal)) (rest : List Token)
    (acc : Rec) (fuel : Nat),
    (encodeFields l).length + 1 ≤ fuel →
    parseFields fuel (encodeFields l ++ Token.rbrace :: rest) acc =
      some (.obj (acc ++ l), rest)
  | [], rest, acc, fuel => by
    cases fuel with
    | zero => intro hf; omega
    | succ f =>
      intro hf
      simp [encodeFields, parseFields]
  | (k, v) :: l, rest, acc, fuel => by
    cases fuel with
    | zero => intro hf; omega
    | succ f =>
      intro hf
      simp only [encodeFields, List.length_cons, List.length_append] at hf
      have hv := encodeVal_length_pos v
      rw [encodeFields]
      simp only [List.cons_append, parseFields, List.append_assoc, List.append_eq]
      rw [if_neg (by simp)]
      rw [parseVal_encode v _ f (by omega)]
      show parseFields f (encodeFields l ++ Token.rbrace :: rest) (mset acc k v) =
        some (JVal.obj (acc ++ (k, v) :: l), rest)
      rw [parseFields_encode l rest (mset acc k v) f (by omega)]
      simp [mset]

end

/-- `dec.Decode` on an encoded value always succeeds with that value: the
wrapper's fuel exceeds the encoded length. -/
theorem decodeValue_encode (v : JVal) (rest : List Token) :
    decodeValue (encodeVal v ++ rest) = some (v, rest) := by
  apply parseVal_encode
  simp only [List.length_append]
  omega

/-! ### Skip lemmas -/

mutual

theorem skipAux_encode : ∀ (v : JVal) (rest : List Token) (n : Int), 1 ≤ n →
    skipAux (encodeVal v ++ rest) n = skipAux rest n
  | .str s, rest, n => by
    intro hn
    simp only [encodeVal, List.singleton_append, skipAux, List.append_eq,
      List.nil_append]
    rw [if_neg (by omega)]
  | .num m, rest, n => by
    intro hn
    simp only [encodeVal, List.singleton_append, skipAux, List.append_eq,
      List.nil_append]
    rw [if_neg (by omega)]
  | .bool b, rest, n => by
    intro hn
    simp only [encodeVal, List.singleton_append, skipAux, List.append_eq,
      List.nil_append]
    rw [if_neg (by omega)]
  | .null, rest, n => by
    intro hn
    simp only [encodeVal, List.singleton_append, skipAux, List.append_eq,
      List.nil_append]
    rw [if_neg (by omega)]
  | .arr l, rest, n => by
    intro hn
    simp only [encodeVal, List.cons_append, skipAux, List.append_assoc,
      List.singleton_append, List.append_eq, List.nil_append]
    rw [if_neg (by omega)]
    rw [skipAux_encodeElems l (Token.rbrack :: rest) (n + 1) (by omega)]
    simp only [skipAux]
    rw [if_neg (by omega)]
    congr 1
    omega
  | .obj l, rest, n => by
    intro hn
    simp only [encodeVal, List.cons_append, skipAux, List.append_assoc,
      List.singleton_append, List.append_eq, List.nil_append]
    rw [if_neg (by omega)]
    rw [skipAux_encodeFields l (Token.rbrace :: rest) (n + 1) (by omega)]
    simp only [skipAux]
    rw [if_neg (by omega)]
    congr 1
    omega

theorem skipAux_encodeElems : ∀ (l : List JVal) (rest : List Token) (n : Int),
    1 ≤ n → skipAux (encodeElems l ++ rest) n = skipAux rest n
  | [], rest, n => by intro hn; rw [encodeElems, List.nil_append]
  | v :: l, rest, n => by
    intro hn
    rw [encodeElems, List.append_assoc, skipAux_encode v _ n hn,
      skipAux_encodeElems l rest n hn]

theorem skipAux_encodeFields : ∀ (l : List (String × JVal)) (rest : List Token)
    (n : Int), 1 ≤ n → skipAux (encodeFields l ++ rest) n = skipAux rest n
  | [], rest, n => by intro hn; rw [encodeFields, List.nil_append]
  | (k, v) :: l, rest, n => by
    intro hn
    rw [encodeFields]
    simp only [List.cons_append, skipAux, List.append_assoc, List.append_eq,
      List.nil_append]
    rw [if_neg (by omega)]
    rw [skipAux_encode v _ n hn, skipAux_encodeFields l rest n hn]

end

/-- `skip` on an encoded value consumes exactly that value. -/
theorem skipValue_encode (v : JVal) (rest : List Token) :
    skipValue (encodeVal v ++ rest) = .ok rest := by
  cases v with
  | str s => simp [skipValue, encodeVal, skipAux]
  | num n => simp [skipValue, encodeVal, skipAux]
  | bool b => simp [skipValue, encodeVal, skipAux]
  | null => simp [skipValue, encodeVal, skipAux]
  | arr l =>
    simp only [skipValue, encodeVal, List.cons_append, skipAux,
      List.append_assoc, List.singleton_append, List.append_eq, List.nil_append]
    rw [if_neg (by omega)]
    rw [skipAux_encodeElems l (Token.rbrack :: rest) (0 + 1) (by omega)]
    simp [skipAux]
  | obj l =>
    simp only [skipValue, encodeVal, List.cons_append, skipAux,
      List.append_assoc, List.singleton_append, List.append_eq, List.nil_append]
    rw [if_neg (by omega)]
    rw [skipAux_encodeFields l (Token.rbrace :: rest) (0 + 1) (by omega)]
    simp [skipAux]

/-! ### The metadata accumulated over a prefix of top-level fields -/

/-- What one top-level field `(name, value)` contributes to the metadata:
a captured string field is stored through `addMetadata` under its
destination name; anything else leaves the metadata unchanged. -/
def captureStep (spec : ItemTransformSpec) (md : Rec) (p : String × JVal) : Rec :=
  match alookup spec.Fields p.1, p.2 with
  | some dest, .str s => (addMetadata md (if dest = "" then p.1 else dest) (.tstr s)).1
  | _, _ => md

/-- The metadata after the producer has scanned the fields `pre`. -/
def captureAll (spec : ItemTransformSpec) (md : Rec) (pre : List (String × JVal)) : Rec :=
  pre.foldl (captureStep spec) md

theorem captureAll_cons (spec : ItemTransformSpec) (md : Rec) (p : String × JVal)
    (pre : List (String × JVal)) :
    captureAll spec md (p :: pre) = captureAll spec (captureStep spec md p) pre := rfl

theorem addMetadata_str (md : Rec) (key s : String) :
    (addMetadata md key (.tstr s)).2 = none := by
  rw [addMetadata]
  cases h : mget (if (mget md "config_snapshot").isSome then md
      else mset md "config_snapshot" (.obj [])) "config_snapshot" with
  | none => simp [h]
  | some w => cases w <;> simp [h]

/-! ### Splitting a well-formed array -/

theorem more_closer (rest : List Token) : more (Token.rbrack :: rest) = false := by
  simp [more]

theorem diLoop_encode : ∀ (elems : List Rec) (metadata : Rec) (rest : List Token)
    (fuel : Nat),
    (encodeElems (elems.map JVal.obj)).length < fuel →
    diLoop fuel metadata (encodeElems (elems.map JVal.obj) ++ Token.rbrack :: rest) =
      ⟨elems.map (fun e => Event.item (enrich metadata e)), Token.rbrack :: rest,
        none, false⟩
  | [], metadata, rest, fuel => by
    intro hf
    cases fuel with
    | zero => exact absurd hf (Nat.not_lt_zero _)
    | succ f => simp [diLoop, more, encodeElems]
  | e :: elems, metadata, rest, fuel => by
    intro hf
    cases fuel with
    | zero => exact absurd hf (Nat.not_lt_zero _)
    | succ f =>
      simp only [List.map_cons, encodeElems, List.length_append] at hf ⊢
      rw [List.append_assoc]
      have hm : more (encodeVal (JVal.obj e) ++
          (encodeElems (elems.map JVal.obj) ++ Token.rbrack :: rest)) = true := by
        simp [encodeVal, more]
      simp only [diLoop, hm, if_true]
      rw [decodeValue_encode (JVal.obj e)
        (encodeElems (elems.map JVal.obj) ++ Token.rbrack :: rest)]
      show (⟨Event.item (enrich metadata e) ::
          (diLoop f metadata (encodeElems (elems.map JVal.obj) ++
            Token.rbrack :: rest)).events, _, _, _⟩ : ItemsOut) = _
      rw [diLoop_encode elems metadata rest f
        (by have := encodeVal_length_pos (JVal.obj e); omega)]

theorem scanLoop_more_false (fuel : Nat) (spec : ItemTransformSpec) (md : Rec)
    (ts : List Token) (h : more ts = false) :
    scanLoop fuel spec md ts = ⟨[], false⟩ := by
  cases fuel with
  | zero => rfl
  | succ f => simp [scanLoop, h]

/-- On a well-formed top-level token stream — the captured and skippable
fields `pre` followed by the items field holding an array of objects —
the field loop emits exactly one enriched record per element and nothing
else, and ends normally. -/
theorem scanLoop_encode : ∀ (pre : List (String × JVal)) (spec : ItemTransformSpec)
    (metadata : Rec) (elems : List Rec) (post : List Token) (fuel : Nat),
    (∀ p ∈ pre, p.1 ≠ spec.ItemsField) →
    (∀ p ∈ pre, alookup spec.Fields p.1 = none ∨ ∃ s, p.2 = JVal.str s) →
    (encodeFields pre).length + (encodeElems (elems.map JVal.obj)).length + 2 ≤ fuel →
    scanLoop fuel spec metadata
        (encodeFields pre ++ Token.tstr spec.ItemsField :: Token.lbrack ::
          (encodeElems (elems.map JVal.obj) ++ Token.rbrack :: post)) =
      ⟨elems.map fun e => Event.item (enrich (captureAll spec metadata pre) e), false⟩
  | [], spec, metadata, elems, post, fuel => by
    intro h1 h2 hf
    simp only [encodeFields, List.length_nil, List.nil_append] at hf ⊢
    cases fuel with
    | zero => omega
    | succ f =>
      have hm : more (Token.tstr spec.ItemsField :: Token.lbrack ::
          (encodeElems (elems.map JVal.obj) ++ Token.rbrack :: post)) = true := by
        simp [more]
      simp only [scanLoop, hm, if_true, if_pos rfl]
      rw [decodeItems]
      simp only [if_pos rfl]
      rw [diLoop_encode elems metadata post _ (by simp only [List.length_append, List.length_cons]; omega)]
      show (⟨(elems.map fun e => Event.item (enrich metadata e)) ++
          (scanLoop f spec metadata (Token.rbrack :: post)).events,
          (scanLoop f spec metadata (Token.rbrack :: post)).panicked⟩ : RunOut) = _
      rw [scanLoop_more_false f spec metadata _ (more_closer post)]
      simp [captureAll]
  | (k, v) :: pre, spec, metadata, elems, post, fuel => by
    intro h1 h2 hf
    have hk : k ≠ spec.ItemsField := h1 (k, v) (List.mem_cons_self _ _)
    have hv1 := encodeVal_length_pos v
    simp only [encodeFields, List.length_cons, List.length_append] at hf
    cases fuel with
    | zero => omega
    | succ f =>
      simp only [encodeFields, List.cons_append, List.append_assoc]
      have hm : more (Token.tstr k :: (encodeVal v ++ (encodeFields pre ++
          Token.tstr spec.ItemsField :: Token.lbrack ::
            (encodeElems (elems.map JVal.obj) ++ Token.rbrack :: post)))) = true := by
        simp [more]
      simp only [scanLoop, hm, if_true, if_neg hk]
      cases hal : alookup spec.Fields k with
      | none =>
        rw [skipValue_encode v _]
        show scanLoop f spec metadata (encodeFields pre ++
            Token.tstr spec.ItemsField :: Token.lbrack ::
              (encodeElems (elems.map JVal.obj) ++ Token.rbrack :: post)) = _
        rw [scanLoop_encode pre spec metadata elems post f
          (fun p hp => h1 p (List.mem_cons_of_mem _ hp))
          (fun p hp => h2 p (List.mem_cons_of_mem _ hp))
          (by omega)]
        have hcs : captureStep spec metadata (k, v) = metadata := by
          simp only [captureStep, hal]
        rw [captureAll_cons, hcs]
      | some dest =>
        obtain hs | ⟨s, hvs⟩ := h2 (k, v) (List.mem_cons_self _ _)
        · rw [hal] at hs; cases hs
        subst hvs
        simp only [encodeVal, List.singleton_append]
        rw [if_neg (by simp)]
        have hmd := addMetadata_str metadata (if dest = "" then k else dest) s
        cases hres : addMetadata metadata (if dest = "" then k else dest)
            (Token.tstr s) with
        | mk md1 e1 =>
          rw [hres] at hmd
          simp only at hmd
          subst hmd
          show scanLoop f spec md1 (encodeFields pre ++
              Token.tstr spec.ItemsField :: Token.lbrack ::
                (encodeElems (elems.map JVal.obj) ++ Token.rbrack :: post)) = _
          rw [scanLoop_encode pre spec md1 elems post f
            (fun p hp => h1 p (List.mem_cons_of_mem _ hp))
            (fun p hp => h2 p (List.mem_cons_of_mem _ hp))
            (by omega)]
          have hcs : captureStep spec metadata (k, JVal.str s) = md1 := by
            simp only [captureStep, hal]
            rw [hres]
          rw [captureAll_cons, hcs]

/-! ### Well-formed documents and the producer on them -/

/-- The token stream of a well-formed input document: a JSON object whose
fields are `pre` (the captured and ignored scalar fields, all of which
precede the target array) followed by the items field holding an array of
`elems` objects. -/
def wfDoc (spec : ItemTransformSpec) (pre : List (String × JVal))
    (elems : List Rec) : List Token :=
  Token.lbrace :: (encodeFields pre ++ Token.tstr spec.ItemsField :: Token.lbrack ::
    (encodeElems (elems.map JVal.obj) ++ Token.rbrack :: [Token.rbrace]))

theorem encodeFields_append (l1 l2 : List (String × JVal)) :
    encodeFields (l1 ++ l2) = encodeFields l1 ++ encodeFields l2 := by
  induction l1 with
  | nil => simp [encodeFields]
  | cons p l1 ih =>
    obtain ⟨k, v⟩ := p
    simp [encodeFields, ih]

/-- Sanity check: `wfDoc` is exactly the token stream of the JSON object
with fields `pre` followed by the items array. -/
theorem wfDoc_eq_encode (spec : ItemTransformSpec) (pre : List (String × JVal))
    (elems : List Rec) :
    wfDoc spec pre elems =
      encodeVal (.obj (pre ++ [(spec.ItemsField, .arr (elems.map JVal.obj))])) := by
  rw [wfDoc, encodeVal, encodeFields_append]
  simp [encodeFields, encodeVal]

/-- Unfolding of the producer on a document that starts with `{`. -/
theorem DecodeAndSplitItems_lbrace (spec : ItemTransformSpec) (ingest : String)
    (rest : List Token) :
    DecodeAndSplitItems spec ingest (Token.lbrace :: rest) =
      ⟨(scanLoop (rest.length + 1) spec (metadataInit ingest) rest).events ++
        [Event.closeErrors, Event.closeItems],
        (scanLoop (rest.length + 1) spec (metadataInit ingest) rest).panicked⟩ := by
  rw [DecodeAndSplitItems]
  simp

/-- The producer on a well-formed document: one enriched record per array
element, no errors, no panic, and the two channel closings at the end. -/
theorem run_encode (spec : ItemTransformSpec) (ingest : String)
    (pre : List (String × JVal)) (elems : List Rec)
    (h1 : ∀ p ∈ pre, p.1 ≠ spec.ItemsField)
    (h2 : ∀ p ∈ pre, alookup spec.Fields p.1 = none ∨ ∃ s, p.2 = JVal.str s) :
    DecodeAndSplitItems spec ingest (wfDoc spec pre elems) =
      ⟨(elems.map fun e =>
          Event.item (enrich (captureAll spec (metadataInit ingest) pre) e)) ++
        [Event.closeErrors, Event.closeItems], false⟩ := by
  rw [wfDoc, DecodeAndSplitItems_lbrace]
  rw [scanLoop_encode pre spec (metadataInit ingest) elems [Token.rbrace] _ h1 h2
    (by simp only [List.length_append, List.length_cons]; omega)]

/-- `itemsOf` of a run made of mapped item events followed by events that
contain no items. -/
theorem itemsOf_mapped (f : Rec → Rec) (l : List Rec) (tail : List Event)
    (ht : itemsOf tail = []) :
    itemsOf ((l.map fun e => Event.item (f e)) ++ tail) = l.map f := by
  induction l with
  | nil => simpa [itemsOf] using ht
  | cons e l ih =>
    simp only [List.map_cons, List.cons_append, itemsOf, List.filterMap_cons]
    simp only [itemsOf] at ih
    rw [ih]

theorem itemsOf_closes : itemsOf [Event.closeErrors, Event.closeItems] = [] := rfl

theorem errorsOf_mapped (f : Rec → Rec) (l : List Rec) (tail : List Event)
    (ht : errorsOf tail = []) :
    errorsOf ((l.map fun e => Event.item (f e)) ++ tail) = [] := by
  induction l with
  | nil => simpa [errorsOf] using ht
  | cons e l ih =>
    simp only [List.map_cons, List.cons_append, errorsOf, List.filterMap_cons]
    simp only [errorsOf] at ih
    rw [ih]

theorem errorsOf_closes : errorsOf [Event.closeErrors, Event.closeItems] = [] := rfl

/-! ### Shape of the events sent by the goroutine (arbitrary inputs) -/

theorem diLoop_shape : ∀ (fuel : Nat) (md : Rec) (ts : List Token) (e : Event),
    e ∈ (diLoop fuel md ts).events →
    (∃ fields, e = Event.item (enrich md fields)) ∨ ∃ s, e = Event.errMsg s
  | 0, md, ts, e => by simp [diLoop]
  | fuel + 1, md, ts, e => by
    rw [diLoop]
    by_cases hm : more ts = true
    · rw [if_pos hm]
      cases hd : decodeValue ts with
      | none =>
        intro he
        simp at he
        exact Or.inr ⟨_, he⟩
      | some p =>
        obtain ⟨v, r⟩ := p
        cases v with
        | obj fields =>
          intro he
          rcases List.mem_cons.mp he with h | h
          · exact Or.inl ⟨fields, h⟩
          · exact diLoop_shape fuel md r e h
        | null => intro he; simp at he
        | str s => intro he; simp at he; exact Or.inr ⟨_, he⟩
        | num n => intro he; simp at he; exact Or.inr ⟨_, he⟩
        | bool b => intro he; simp at he; exact Or.inr ⟨_, he⟩
        | arr l => intro he; simp at he; exact Or.inr ⟨_, he⟩
    · rw [if_neg hm]
      simp

theorem decodeItems_shape (md : Rec) (ts : List Token) (e : Event)
    (he : e ∈ (decodeItems md ts).events) :
    (∃ fields, e = Event.item (enrich md fields)) ∨ ∃ s, e = Event.errMsg s := by
  cases ts with
  | nil => rw [decodeItems] at he; simp at he
  | cons t rest =>
    rw [decodeItems] at he
    by_cases ht : t = Token.lbrack
    · rw [if_pos ht] at he
      exact diLoop_shape _ md rest e he
    · rw [if_neg ht] at he
      simp at he

theorem diLoop_ok_rest : ∀ (fuel : Nat) (md : Rec) (ts : List Token),
    ts.length < fuel → (diLoop fuel md ts).fail = none →
    (diLoop fuel md ts).panicked = false → more (diLoop fuel md ts).rest = false
  | 0, md, ts => by intro h; exact absurd h (Nat.not_lt_zero _)
  | fuel + 1, md, ts => by
    intro hlen
    rw [diLoop]
    by_cases hm : more ts = true
    · rw [if_pos hm]
      cases hd : decodeValue ts with
      | none => intro h1 h2; simp at h2
      | some p =>
        obtain ⟨v, r⟩ := p
        rw [decodeValue] at hd
        have hr : r.length < ts.length := parseVal_shortens _ ts r v hd
        cases v with
        | obj fields =>
          intro h1 h2
          exact diLoop_ok_rest fuel md r (by omega) h1 h2
        | null => intro h1 h2; simp at h2
        | str s => intro h1 h2; simp at h2
        | num n => intro h1 h2; simp at h2
        | bool b => intro h1 h2; simp at h2
        | arr l => intro h1 h2; simp at h2
    · rw [if_neg hm]
      intro _ _
      simp only [Bool.not_eq_true] at hm
      exact hm

theorem decodeItems_ok_rest (md : Rec) (ts : List Token)
    (h1 : (decodeItems md ts).fail = none)
    (h2 : (decodeItems md ts).panicked = false) :
    more (decodeItems md ts).rest = false := by
  cases ts with
  | nil => rw [decodeItems] at h1; simp at h1
  | cons t rest =>
    rw [decodeItems] at h1 h2 ⊢
    by_cases ht : t = Token.lbrack
    · rw [if_pos ht] at h1 h2 ⊢
      exact diLoop_ok_rest _ md rest (Nat.lt_succ_self _) h1 h2
    · rw [if_neg ht] at h1
      simp at h1

theorem scanLoop_shape : ∀ (fuel : Nat) (spec : ItemTransformSpec) (md : Rec)
    (ts : List Token) (e : Event),
    e ∈ (scanLoop fuel spec md ts).events →
    (∃ r, e = Event.item r) ∨ ∃ s, e = Event.errMsg s
  | 0, spec, md, ts, e => by simp [scanLoop]
  | fuel + 1, spec, md, ts, e => by
    by_cases hm : more ts = true
    case neg => simp [scanLoop, hm]
    case pos =>
      cases ts with
      | nil => simp [more] at hm
      | cons t rest =>
        cases t with
        | tstr f =>
          simp only [scanLoop, hm, if_true]
          by_cases hif : f = spec.ItemsField
          · rw [if_pos hif]
            rcases hout : decodeItems md rest with ⟨oev, orest, ofail, opan⟩
            cases opan with
            | true =>
              intro he
              rcases decodeItems_shape md rest e (by rw [hout]; exact he) with
                ⟨fields, hf2⟩ | hs
              · exact Or.inl ⟨_, hf2⟩
              · exact Or.inr hs
            | false =>
              cases ofail with
              | some err =>
                intro he
                rcases List.mem_append.mp he with h | h
                · rcases decodeItems_shape md rest e (by rw [hout]; exact h) with
                    ⟨fields, hf2⟩ | hs
                  · exact Or.inl ⟨_, hf2⟩
                  · exact Or.inr hs
                · simp at h
                  exact Or.inr ⟨_, h⟩
              | none =>
                intro he
                rcases List.mem_append.mp he with h | h
                · rcases decodeItems_shape md rest e (by rw [hout]; exact h) with
                    ⟨fields, hf2⟩ | hs
                  · exact Or.inl ⟨_, hf2⟩
                  · exact Or.inr hs
                · exact scanLoop_shape fuel spec md orest e h
          · cases hal : alookup spec.Fields f with
            | some dest =>
              cases rest with
              | nil =>
                simp only [scanLoop, hm, if_true, if_neg hif, hal]
                intro he; simp at he; exact Or.inr ⟨_, he⟩
              | cons v rest2 =>
                by_cases hd : v = Token.lbrace ∨ v = Token.rbrace ∨
                    v = Token.lbrack ∨ v = Token.rbrack
                · simp only [scanLoop, hm, if_true, if_neg hif, hal, if_pos hd]
                  intro he; simp at he; exact Or.inr ⟨_, he⟩
                · cases hadd : (addMetadata md (if dest = "" then f else dest) v).2 with
                  | some err =>
                    simp only [scanLoop, hm, if_true, if_neg hif, hal, if_neg hd, hadd]
                    intro he; simp at he; exact Or.inr ⟨_, he⟩
                  | none =>
                    simp only [scanLoop, hm, if_true, if_neg hif, hal, if_neg hd, hadd]
                    exact fun he => scanLoop_shape fuel spec _ rest2 e he
            | none =>
              cases hsk : skipValue rest with
              | error err =>
                simp only [scanLoop, hm, if_true, if_neg hif, hal, hsk]
                intro he; simp at he; exact Or.inr ⟨_, he⟩
              | ok r =>
                simp only [scanLoop, hm, if_true, if_neg hif, hal, hsk]
                exact fun he => scanLoop_shape fuel spec md r e he
        | lbrace =>
          simp only [scanLoop, hm, if_true]
          exact fun he => scanLoop_shape fuel spec md rest e he
        | rbrace =>
          simp only [scanLoop, hm, if_true]
          exact fun he => scanLoop_shape fuel spec md rest e he
        | lbrack =>
          simp only [scanLoop, hm, if_true]
          exact fun he => scanLoop_shape fuel spec md rest e he
        | rbrack =>
          simp only [scanLoop, hm, if_true]
          exact fun he => scanLoop_shape fuel spec md rest e he
        | tnum n =>
          simp only [scanLoop, hm, if_true]
          exact fun he => scanLoop_shape fuel spec md rest e he
        | tbool b =>
          simp only [scanLoop, hm, if_true]
          exact fun he => scanLoop_shape fuel spec md rest e he
        | tnull =>
          simp only [scanLoop, hm, if_true]
          exact fun he => scanLoop_shape fuel spec md rest e he

/-! ### All records of a run carry the same metadata map (claim C9) -/

theorem decodeItems_item (md : Rec) (ts : List Token) (r : Rec)
    (he : Event.item r ∈ (decodeItems md ts).events) :
    ∃ fields, r = enrich md fields := by
  rcases decodeItems_shape md ts (Event.item r) he with ⟨fields, hf2⟩ | ⟨s, hs⟩
  · exact ⟨fields, by injection hf2⟩
  · simp at hs

/-- The `metadata` entry of an enriched record depends only on the
metadata map, not on the element's own fields. -/
theorem enrich_mget_metadata (md fields : Rec) :
    mget (enrich md fields) "metadata" =
      some ((mget md "metadata").getD (JVal.obj md)) := by
  have h2 : mget (("metadata", JVal.obj md) :: md) "metadata" =
      some ((mget md "metadata").getD (JVal.obj md)) := by
    cases h : mget md "metadata" <;> simp [mget, h]
  rw [enrich_eq, mget_append, h2]

theorem scanLoop_metadata : ∀ (fuel : Nat) (spec : ItemTransformSpec) (md : Rec)
    (ts : List Token),
    ∃ md2 : Rec, ∀ r : Rec, Event.item r ∈ (scanLoop fuel spec md ts).events →
      ∃ fields, r = enrich md2 fields
  | 0, spec, md, ts => ⟨md, by simp [scanLoop]⟩
  | fuel + 1, spec, md, ts => by
    by_cases hm : more ts = true
    case neg => exact ⟨md, by simp [scanLoop, hm]⟩
    case pos =>
      cases ts with
      | nil => simp [more] at hm
      | cons t rest =>
        cases t with
        | tstr f =>
          by_cases hif : f = spec.ItemsField
          · refine ⟨md, fun r he => ?_⟩
            simp only [scanLoop, hm, if_true, if_pos hif] at he
            rcases hout : decodeItems md rest with ⟨oev, orest, ofail, opan⟩
            rw [hout] at he
            cases opan with
            | true => exact decodeItems_item md rest r (by rw [hout]; exact he)
            | false =>
              cases ofail with
              | some err =>
                rcases List.mem_append.mp he with h | h
                · exact decodeItems_item md rest r (by rw [hout]; exact h)
                · simp at h
              | none =>
                rcases List.mem_append.mp he with h | h
                · exact decodeItems_item md rest r (by rw [hout]; exact h)
                · have hmore : more orest = false := by
                    have hok := decodeItems_ok_rest md rest (by rw [hout]) (by rw [hout])
                    rw [hout] at hok
                    exact hok
                  rw [scanLoop_more_false fuel spec md orest hmore] at h
                  simp at h
          · cases hal : alookup spec.Fields f with
            | some dest =>
              cases rest with
              | nil =>
                refine ⟨md, fun r he => ?_⟩
                simp only [scanLoop, hm, if_true, if_neg hif, hal] at he
                simp at he
              | cons v rest2 =>
                by_cases hd : v = Token.lbrace ∨ v = Token.rbrace ∨
                    v = Token.lbrack ∨ v = Token.rbrack
                · refine ⟨md, fun r he => ?_⟩
                  simp only [scanLoop, hm, if_true, if_neg hif, hal, if_pos hd] at he
                  simp at he
                · cases hadd : (addMetadata md (if dest = "" then f else dest) v).2 with
                  | some err =>
                    refine ⟨md, fun r he => ?_⟩
                    simp only [scanLoop, hm, if_true, if_neg hif, hal, if_neg hd,
                      hadd] at he
                    simp at he
                  | none =>
                    rcases scanLoop_metadata fuel spec
                        (addMetadata md (if dest = "" then f else dest) v).1 rest2 with
                      ⟨md2, hmd2⟩
                    refine ⟨md2, fun r he => ?_⟩
                    simp only [scanLoop, hm, if_true, if_neg hif, hal, if_neg hd,
                      hadd] at he
                    exact hmd2 r he
            | none =>
              cases hsk : skipValue rest with
              | error err =>
                refine ⟨md, fun r he => ?_⟩
                simp only [scanLoop, hm, if_true, if_neg hif, hal, hsk] at he
                simp at he
              | ok r2 =>
                rcases scanLoop_metadata fuel spec md r2 with ⟨md2, hmd2⟩
                refine ⟨md2, fun r he => ?_⟩
                simp only [scanLoop, hm, if_true, if_neg hif, hal, hsk] at he
                exact hmd2 r he
        | lbrace =>
          rcases scanLoop_metadata fuel spec md rest with ⟨md2, hmd2⟩
          refine ⟨md2, fun r he => ?_⟩
          simp only [scanLoop, hm, if_true] at he
          exact hmd2 r he
        | rbrace =>
          rcases scanLoop_metadata fuel spec md rest with ⟨md2, hmd2⟩
          refine ⟨md2, fun r he => ?_⟩
          simp only [scanLoop, hm, if_true] at he
          exact hmd2 r he
        | lbrack =>
          rcases scanLoop_metadata fuel spec md rest with ⟨md2, hmd2⟩
          refine ⟨md2, fun r he => ?_⟩
          simp only [scanLoop, hm, if_true] at he
          exact hmd2 r he
        | rbrack =>
          rcases scanLoop_metadata fuel spec md rest with ⟨md2, hmd2⟩
          refine ⟨md2, fun r he => ?_⟩
          simp only [scanLoop, hm, if_true] at he
          exact hmd2 r he
        | tnum n =>
          rcases scanLoop_metadata fuel spec md rest with ⟨md2, hmd2⟩
          refine ⟨md2, fun r he => ?_⟩
          simp only [scanLoop, hm, if_true] at he
          exact hmd2 r he
        | tbool b =>
          rcases scanLoop_metadata fuel spec md rest with ⟨md2, hmd2⟩
          refine ⟨md2, fun r he => ?_⟩
          simp only [scanLoop, hm, if_true] at he
          exact hmd2 r he
        | tnull =>
          rcases scanLoop_metadata fuel spec md rest with ⟨md2, hmd2⟩
          refine ⟨md2, fun r he => ?_⟩
          simp only [scanLoop, hm, if_true] at he
          exact hmd2 r he

/-! ### Content of the metadata map built by the producer -/

/-- The `config_snapshot` sub-map of a metadata map (empty when absent). -/
def csOf (md : Rec) : Rec :=
  match mget md "config_snapshot" with
  | some (.obj m) => m
  | _ => []

/-- The `config_snapshot` entry is absent or holds an object (true of the
initial metadata and preserved by `addMetadata`). -/
def csOk (md : Rec) : Prop :=
  mget md "config_snapshot" = none ∨
    ∃ m, mget md "config_snapshot" = some (JVal.obj m)

theorem addMetadata_mget_other (md : Rec) (key s k2 : String)
    (hk : k2 ≠ "config_snapshot") :
    mget (addMetadata md key (Token.tstr s)).1 k2 = mget md k2 := by
  cases h : mget md "config_snapshot" with
  | none =>
    simp only [addMetadata, h, Option.isSome_none, Bool.false_eq_true, if_false,
      mget_mset_same]
    rw [mget_mset_ne _ _ _ _ hk, mget_mset_ne _ _ _ _ hk]
  | some w =>
    cases w with
    | obj m =>
      simp only [addMetadata, h, Option.isSome_some, if_true]
      rw [mget_mset_ne _ _ _ _ hk]
    | str s2 => simp [addMetadata, h]
    | num n => simp [addMetadata, h]
    | bool b => simp [addMetadata, h]
    | null => simp [addMetadata, h]
    | arr l => simp [addMetadata, h]

theorem addMetadata_mget_cs (md : Rec) (key s : String) (hok : csOk md) :
    mget (addMetadata md key (Token.tstr s)).1 "config_snapshot" =
      some (JVal.obj (mset (csOf md) key (.str s))) := by
  rcases hok with h | ⟨m, h⟩
  · simp only [addMetadata, h, Option.isSome_none, Bool.false_eq_true, if_false,
      mget_mset_same, csOf]
  · simp only [addMetadata, h, Option.isSome_some, if_true, csOf]
    rw [mget_mset_same]

theorem addMetadata_nonstr (md : Rec) (key : String) (t : Token)
    (ht : ∀ s, t ≠ Token.tstr s) :
    (addMetadata md key t).2 = some "addMetadata: value is not a string type" := by
  cases t with
  | tstr s => exact absurd rfl (ht s)
  | lbrace => rfl
  | rbrace => rfl
  | lbrack => rfl
  | rbrack => rfl
  | tnum n => rfl
  | tbool b => rfl
  | tnull => rfl

/-- The captured pairs contributed by the fields `pre`, accumulated onto
`acc` exactly as the spec describes the captured-field mapping: source
values stored under destination names (source name when the destination
is empty). -/
def capturedOf (spec : ItemTransformSpec) (acc : Rec) :
    List (String × JVal) → Rec
  | [] => acc
  | p :: pre =>
    match alookup spec.Fields p.1, p.2 with
    | some dest, .str s =>
      capturedOf spec (mset acc (if dest = "" then p.1 else dest) (.str s)) pre
    | _, _ => capturedOf spec acc pre

theorem captureStep_csOk (spec : ItemTransformSpec) (md : Rec)
    (p : String × JVal) (hok : csOk md) : csOk (captureStep spec md p) := by
  rw [captureStep]
  cases hal : alookup spec.Fields p.1 with
  | none => cases p.2 <;> exact hok
  | some dest =>
    cases hv : p.2 with
    | str s =>
      right
      exact ⟨_, addMetadata_mget_cs md _ s hok⟩
    | num n => exact hok
    | bool b => exact hok
    | null => exact hok
    | arr l => exact hok
    | obj l => exact hok

theorem captureAll_csOk : ∀ (pre : List (String × JVal))
    (spec : ItemTransformSpec) (md : Rec), csOk md → csOk (captureAll spec md pre)
  | [], spec, md => fun h => h
  | p :: pre, spec, md => fun h =>
    captureAll_csOk pre spec (captureStep spec md p) (captureStep_csOk spec md p h)

theorem captureAll_mget_other : ∀ (pre : List (String × JVal))
    (spec : ItemTransformSpec) (md : Rec) (k : String), k ≠ "config_snapshot" →
    mget (captureAll spec md pre) k = mget md k
  | [], spec, md, k => fun _ => rfl
  | p :: pre, spec, md, k => fun hk => by
    rw [captureAll_cons, captureAll_mget_other pre spec _ k hk]
    rw [captureStep]
    cases hal : alookup spec.Fields p.1 with
    | none => cases p.2 <;> rfl
    | some dest =>
      cases p.2 with
      | str s => exact addMetadata_mget_other md _ s k hk
      | num n => rfl
      | bool b => rfl
      | null => rfl
      | arr l => rfl
      | obj l => rfl

theorem captureAll_csOf : ∀ (pre : List (String × JVal))
    (spec : ItemTransformSpec) (md : Rec), csOk md →
    csOf (captureAll spec md pre) = capturedOf spec (csOf md) pre
  | [], spec, md => fun _ => rfl
  | p :: pre, spec, md => fun hok => by
    rw [captureAll_cons, captureAll_csOf pre spec _ (captureStep_csOk spec md p hok)]
    rw [capturedOf, captureStep]
    cases hal : alookup spec.Fields p.1 with
    | none => cases p.2 <;> rfl
    | some dest =>
      cases p.2 with
      | str s =>
        have hcs := addMetadata_mget_cs md (if dest = "" then p.1 else dest) s hok
        simp only [csOf, hcs]
      | num n => rfl
      | bool b => rfl
      | null => rfl
      | arr l => rfl
      | obj l => rfl

theorem metadataInit_mget_cs (ingest : String) :
    mget (metadataInit ingest) "config_snapshot" = none := by
  simp [metadataInit, mset, mget]

theorem metadataInit_csOk (ingest : String) : csOk (metadataInit ingest) :=
  Or.inl (metadataInit_mget_cs ingest)

theorem metadataInit_mget_et (ingest : String) :
    mget (metadataInit ingest) "event_type" = some (.str "config_snapshot") := by
  simp [metadataInit, mset, mget]

theorem metadataInit_mget_es (ingest : String) :
    mget (metadataInit ingest) "event_source" = some (.str "something_useful") := by
  simp [metadataInit, mset, mget]

theorem metadataInit_mget_it (ingest : String) :
    mget (metadataInit ingest) "ingest_time" = some (.str ingest) := by
  simp [metadataInit, mset, mget]

theorem metadataInit_mget_none (ingest : String) (k : String)
    (h1 : k ≠ "event_type") (h2 : k ≠ "event_source") (h3 : k ≠ "ingest_time") :
    mget (metadataInit ingest) k = none := by
  simp only [metadataInit, mset, List.nil_append, List.singleton_append, mget]
  rw [if_neg (fun h => h3 h.symm), if_neg (fun h => h2 h.symm),
    if_neg (fun h => h1 h.symm)]

/-- A record binding coming from the metadata map survives enrichment,
overwriting any same-named binding of the original element. -/
theorem enrich_mget_of_mem (md fields : Rec) (k : String) (v : JVal)
    (h : mget md k = some v) : mget (enrich md fields) k = some v := by
  rw [enrich_eq, mget_append]
  have h2 : mget (("metadata", JVal.obj md) :: md) k = some v := by
    simp [mget, h]
  rw [h2]

theorem enrich_mget_metadata_none (md fields : Rec)
    (h : mget md "metadata" = none) :
    mget (enrich md fields) "metadata" = some (JVal.obj md) := by
  rw [enrich_mget_metadata, h]
  rfl

/-! ### Worker pool -/

theorem foldl_writeStep_itemCount (write : Writer) (fmtLen : Rec → Nat) :
    ∀ (items : List Rec) (st : WorkerStatus),
    (items.foldl (writeStep write fmtLen) st).ItemCount = st.ItemCount + items.length
  | [], st => by simp
  | i :: items, st => by
    rw [List.foldl_cons, foldl_writeStep_itemCount write fmtLen items]
    have h : (writeStep write fmtLen st i).ItemCount = st.ItemCount + 1 := by
      rw [writeStep]
      cases write i <;> simp
    rw [h]
    simp only [List.length_cons]
    omega

theorem runWorker_itemCount (write : Writer) (fmtLen : Rec → Nat) (worker : Nat)
    (startTime endTime : String) (dur : Int) (items : List Rec) :
    (runWorker write fmtLen worker startTime endTime dur items).ItemCount =
      items.length := by
  show (items.foldl (writeStep write fmtLen) _).ItemCount = items.length
  rw [foldl_writeStep_itemCount]
  simp

theorem runWorker_ended_normally (write : Writer) (fmtLen : Rec → Nat)
    (worker : Nat) (startTime endTime : String) (dur : Int) (items : List Rec) :
    (runWorker write fmtLen worker startTime endTime dur items).Status =
      "ended normally" := rfl

theorem foldl_writeStep_errorCount_fail (fmtLen : Rec → Nat) (msg : String) :
    ∀ (items : List Rec) (st : WorkerStatus),
    (items.foldl (writeStep (fun _ => some msg) fmtLen) st).ErrorCount =
      st.ErrorCount + items.length
  | [], st => by simp
  | i :: items, st => by
    rw [List.foldl_cons, foldl_writeStep_errorCount_fail fmtLen msg items]
    simp only [writeStep, List.length_cons]
    omega

theorem runWorker_errorCount_fail (fmtLen : Rec → Nat) (msg : String)
    (worker : Nat) (startTime endTime : String) (dur : Int) (items : List Rec) :
    (runWorker (fun _ => some msg) fmtLen worker startTime endTime dur
      items).ErrorCount = items.length := by
  show (items.foldl (writeStep _ fmtLen) _).ErrorCount = items.length
  rw [foldl_writeStep_errorCount_fail]
  simp

theorem runPool_length (write : Writer) (fmtLen : Rec → Nat)
    (startT endT : Nat → String) (dur : Nat → Int) (parts : List (List Rec)) :
    (runPool write fmtLen startT endT dur parts).length = parts.length := by
  simp [runPool]

theorem runPool_totalItems (write : Writer) (fmtLen : Rec → Nat)
    (startT endT : Nat → String) (dur : Nat → Int) (parts : List (List Rec)) :
    totalItems (runPool write fmtLen startT endT dur parts) =
      (parts.map List.length).sum := by
  rw [totalItems, runPool, List.map_map]
  have h1 : (((List.range parts.length).zip parts).map
      (WorkerStatus.ItemCount ∘ fun p =>
        runWorker write fmtLen p.1 (startT p.1) (endT p.1) (dur p.1) p.2)) =
      ((List.range parts.length).zip parts).map (fun p => p.2.length) := by
    apply List.map_congr_left
    intro p hp
    exact runWorker_itemCount write fmtLen p.1 (startT p.1) (endT p.1) (dur p.1) p.2
  rw [h1]
  have h2 : ((List.range parts.length).zip parts).map (fun p => p.2.length) =
      parts.map List.length := by
    rw [show (fun p : Nat × List Rec => p.2.length) = List.length ∘ Prod.snd from rfl,
      ← List.map_map, List.map_snd_zip _ _ (by simp)]
  rw [h2]

/-! ### A captured field with a non-string value is fatal (claim C6) -/

theorem scanLoop_badfield : ∀ (pre : List (String × JVal))
    (spec : ItemTransformSpec) (metadata : Rec) (bk : String) (bv : JVal)
    (post : List Token) (fuel : Nat),
    (∀ p ∈ pre, p.1 ≠ spec.ItemsField) →
    (∀ p ∈ pre, alookup spec.Fields p.1 = none ∨ ∃ s, p.2 = JVal.str s) →
    bk ≠ spec.ItemsField →
    (alookup spec.Fields bk).isSome = true →
    (∀ s, bv ≠ JVal.str s) →
    (encodeFields pre).length + 2 ≤ fuel →
    ∃ msg, scanLoop fuel spec metadata
        (encodeFields pre ++ Token.tstr bk :: (encodeVal bv ++ post)) =
      ⟨[Event.errMsg msg], false⟩
  | [], spec, metadata, bk, bv, post, fuel => by
    intro h1 h2 hbk hcap hnstr hf
    simp only [encodeFields, List.length_nil, List.nil_append] at hf ⊢
    cases fuel with
    | zero => omega
    | succ f =>
      have hm : more (Token.tstr bk :: (encodeVal bv ++ post)) = true := by
        simp [more]
      cases hal : alookup spec.Fields bk with
      | none => rw [hal] at hcap; simp at hcap
      | some dest =>
        cases bv with
        | str s => exact absurd rfl (hnstr s)
        | obj l =>
          refine ⟨"DecodeAndSplitItems: value is of unexpected type json.Delim", ?_⟩
          simp only [encodeVal, List.cons_append]
          simp [scanLoop, more, if_neg hbk, hal]
        | arr l =>
          refine ⟨"DecodeAndSplitItems: value is of unexpected type json.Delim", ?_⟩
          simp only [encodeVal, List.cons_append]
          simp [scanLoop, more, if_neg hbk, hal]
        | num n =>
          refine ⟨"DecodeAndSplitItems: addMetadata: value is not a string type", ?_⟩
          simp only [encodeVal, List.singleton_append]
          simp [scanLoop, more, if_neg hbk, hal, addMetadata]
        | bool b =>
          refine ⟨"DecodeAndSplitItems: addMetadata: value is not a string type", ?_⟩
          simp only [encodeVal, List.singleton_append]
          simp [scanLoop, more, if_neg hbk, hal, addMetadata]
        | null =>
          refine ⟨"DecodeAndSplitItems: addMetadata: value is not a string type", ?_⟩
          simp only [encodeVal, List.singleton_append]
          simp [scanLoop, more, if_neg hbk, hal, addMetadata]
  | (k, v) :: pre, spec, metadata, bk, bv, post, fuel => by
    intro h1 h2 hbk hcap hnstr hf
    have hk : k ≠ spec.ItemsField := h1 (k, v) (List.mem_cons_self _ _)
    have hv1 := encodeVal_length_pos v
    simp only [encodeFields, List.length_cons, List.length_append] at hf
    cases fuel with
    | zero => omega
    | succ f =>
      simp only [encodeFields, List.cons_append, List.append_assoc]
      have hm : more (Token.tstr k :: (encodeVal v ++ (encodeFields pre ++
          Token.tstr bk :: (encodeVal bv ++ post)))) = true := by
        simp [more]
      simp only [scanLoop, hm, if_true, if_neg hk]
      cases hal : alookup spec.Fields k with
      | none =>
        rw [skipValue_encode v _]
        show ∃ msg, scanLoop f spec metadata (encodeFields pre ++
            Token.tstr bk :: (encodeVal bv ++ post)) = ⟨[Event.errMsg msg], false⟩
        exact scanLoop_badfield pre spec metadata bk bv post f
          (fun p hp => h1 p (List.mem_cons_of_mem _ hp))
          (fun p hp => h2 p (List.mem_cons_of_mem _ hp)) hbk hcap hnstr (by omega)
      | some dest =>
        obtain hs | ⟨s, hvs⟩ := h2 (k, v) (List.mem_cons_self _ _)
        · rw [hal] at hs; cases hs
        subst hvs
        simp only [encodeVal, List.singleton_append]
        rw [if_neg (by simp)]
        have hmd := addMetadata_str metadata (if dest = "" then k else dest) s
        cases hres : addMetadata metadata (if dest = "" then k else dest)
            (Token.tstr s) with
        | mk md1 e1 =>
          rw [hres] at hmd
          simp only at hmd
          subst hmd
          show ∃ msg, scanLoop f spec md1 (encodeFields pre ++
              Token.tstr bk :: (encodeVal bv ++ post)) = ⟨[Event.errMsg msg], false⟩
          exact scanLoop_badfield pre spec md1 bk bv post f
            (fun p hp => h1 p (List.mem_cons_of_mem _ hp))
            (fun p hp => h2 p (List.mem_cons_of_mem _ hp)) hbk hcap hnstr (by omega)

/-! ### The distribution queue is closed exactly once (claim C8) -/

theorem closeItemsCount_append (l1 l2 : List Event) :
    closeItemsCount (l1 ++ l2) = closeItemsCount l1 + closeItemsCount l2 := by
  simp [closeItemsCount, List.filterMap_append]

theorem closeItemsCount_no_close : ∀ (l : List Event),
    (∀ e ∈ l, (∃ r, e = Event.item r) ∨ ∃ s, e = Event.errMsg s) →
    closeItemsCount l = 0
  | [] => fun _ => rfl
  | e :: l => fun h => by
    have he := h e (List.mem_cons_self _ _)
    have hl := closeItemsCount_no_close l (fun x hx => h x (List.mem_cons_of_mem _ hx))
    rcases he with ⟨r, hr⟩ | ⟨s, hs⟩
    · subst hr
      simpa [closeItemsCount, List.filterMap_cons] using hl
    · subst hs
      simpa [closeItemsCount, List.filterMap_cons] using hl

theorem DecodeAndSplitItems_expect_fail (spec : ItemTransformSpec) (ingest : String)
    (t : Token) (rest : List Token) (ht : t ≠ Token.lbrace) :
    DecodeAndSplitItems spec ingest (t :: rest) =
      ⟨[Event.errMsg "DecodeAndSplitItems: expect: unexpected token",
        Event.closeErrors, Event.closeItems], false⟩ := by
  rw [DecodeAndSplitItems]
  simp [ht]

theorem mem_itemsOf (l : List Event) (r : Rec) :
    r ∈ itemsOf l ↔ Event.item r ∈ l := by
  rw [itemsOf, List.mem_filterMap]
  constructor
  · rintro ⟨e, he, hm⟩
    cases e with
    | item r2 => simp at hm; subst hm; exact he
    | errMsg s => simp at hm
    | closeErrors => simp at hm
    | closeItems => simp at hm
  · intro h
    exact ⟨Event.item r, h, rfl⟩

/-! ### Concrete inputs (the specification's worked example and variants) -/

/-- The driver's configuration: capture `configSnapshotId` and
`fileVersion` under their own names; the array field is
`configurationItems`. -/
def exSpec : ItemTransformSpec :=
  { Fields := [("configSnapshotId", ""), ("fileVersion", "")],
    ItemsField := "configurationItems" }

/-- A fixed run timestamp standing for `time.Now()`. -/
def exIngest : String := "2022-08-09T13:40:16Z"

/-- The example document's top-level scalar fields. -/
def exPre : List (String × JVal) :=
  [("fileVersion", .str "1.0"), ("configSnapshotId", .str "abc")]

/-- The example document's two array elements. -/
def exElems : List Rec :=
  [[("resourceId", .str "r1")], [("resourceId", .str "r2")]]

/-- Tokens of
`{"fileVersion":"1.0","configSnapshotId":"abc","configurationItems":[{"resourceId":"r1"},{"resourceId":"r2"}]}`. -/
def exDoc : List Token :=
  [.lbrace, .tstr "fileVersion", .tstr "1.0", .tstr "configSnapshotId", .tstr "abc",
   .tstr "configurationItems", .lbrack,
   .lbrace, .tstr "resourceId", .tstr "r1", .rbrace,
   .lbrace, .tstr "resourceId", .tstr "r2", .rbrace,
   .rbrack, .rbrace]

theorem exDoc_eq : exDoc = wfDoc exSpec exPre exElems := rfl

/-- The metadata map the producer has built when the example document's
array is reached. -/
def exMd : Rec := captureAll exSpec (metadataInit exIngest) exPre

/-- Tokens of `{"configurationItems":[5,{"resourceId":"r2"}]}`: one
malformed (non-object) element followed by a valid one. -/
def c3Doc : List Token :=
  [.lbrace, .tstr "configurationItems", .lbrack, .tnum 5,
   .lbrace, .tstr "resourceId", .tstr "r2", .rbrace, .rbrack, .rbrace]

/-- A token stream whose first field-name position holds the number `7`
instead of a string, followed by the items field with one element. -/
def c5Doc : List Token :=
  [.lbrace, .tnum 7, .tstr "configurationItems", .lbrack, .lbrace, .rbrace,
   .rbrack, .rbrace]

/-! ### The claims -/

/-- Claim C1, counterexample: on the specification's own example — the
captured mapping contains `fileVersion`, and the input is well formed with
both captured fields before the array — both emitted Records lack a
top-level `fileVersion` key, contradicting "each captured source field
appears as a top-level key of the Record". -/
theorem C1_counterexample :
    alookup exSpec.Fields "fileVersion" = some "" ∧
    (itemsOf (DecodeAndSplitItems exSpec exIngest exDoc).events).map
        (fun r => mget r "fileVersion") = [none, none] :=
  ⟨rfl, rfl⟩

/-- Claim C1, amended: every emitted Record contains, flattened at its top
level, every key of the frozen metadata map with its value (overwriting
any same-named key of the original element) — those keys are the three
provenance fields and the `config_snapshot` sub-map — plus a nested
`metadata` key holding that same map.  The captured source fields appear
inside the `config_snapshot` sub-map, not as top-level Record keys. -/
theorem C1_amended_flattened_metadata (spec : ItemTransformSpec) (ingest : String)
    (pre : List (String × JVal)) (elems : List Rec)
    (h1 : ∀ p ∈ pre, p.1 ≠ spec.ItemsField)
    (h2 : ∀ p ∈ pre, alookup spec.Fields p.1 = none ∨ ∃ s, p.2 = JVal.str s) :
    ∀ r ∈ itemsOf (DecodeAndSplitItems spec ingest (wfDoc spec pre elems)).events,
      (∀ k v, mget (captureAll spec (metadataInit ingest) pre) k = some v →
          mget r k = some v) ∧
      mget r "metadata" =
        some (JVal.obj (captureAll spec (metadataInit ingest) pre)) := by
  intro r hr
  rw [run_encode spec ingest pre elems h1 h2] at hr
  rw [itemsOf_mapped _ _ _ itemsOf_closes] at hr
  rcases List.mem_map.mp hr with ⟨e, he, hre⟩
  subst hre
  refine ⟨fun k v hv => enrich_mget_of_mem _ _ k v hv, ?_⟩
  apply enrich_mget_metadata_none
  rw [captureAll_mget_other pre spec _ "metadata" (by decide)]
  exact metadataInit_mget_none ingest "metadata" (by decide) (by decide) (by decide)

/-- Witness for the amended C1: the first record of the example run has
the metadata map's `event_type` entry flattened at its top level and its
`metadata` key holds the map itself. -/
theorem C1_amended_witness :
    mget (enrich (captureAll exSpec (metadataInit exIngest) exPre)
        [("resourceId", JVal.str "r1")]) "event_type" =
      some (JVal.str "config_snapshot") ∧
    mget (enrich (captureAll exSpec (metadataInit exIngest) exPre)
        [("resourceId", JVal.str "r1")]) "metadata" =
      some (JVal.obj (captureAll exSpec (metadataInit exIngest) exPre)) := by
  have hmain := C1_amended_flattened_metadata exSpec exIngest exPre exElems
    (by
      intro p hp
      simp only [exPre, List.mem_cons, List.mem_singleton] at hp
      rcases hp with rfl | rfl | h
      · decide
      · decide
      · simp at h)
    (by
      intro p hp
      simp only [exPre, List.mem_cons, List.mem_singleton] at hp
      rcases hp with rfl | rfl | h
      · exact Or.inr ⟨"1.0", rfl⟩
      · exact Or.inr ⟨"abc", rfl⟩
      · simp at h)
    (enrich (captureAll exSpec (metadataInit exIngest) exPre)
      [("resourceId", JVal.str "r1")])
    (by
      rw [show itemsOf (DecodeAndSplitItems exSpec exIngest
          (wfDoc exSpec exPre exElems)).events =
        [enrich (captureAll exSpec (metadataInit exIngest) exPre)
            [("resourceId", JVal.str "r1")],
          enrich (captureAll exSpec (metadataInit exIngest) exPre)
            [("resourceId", JVal.str "r2")]] from rfl]
      exact List.mem_cons_self _ _)
  exact ⟨hmain.1 "event_type" (JVal.str "config_snapshot") rfl, hmain.2⟩

/-- Claim C2, counterexample: on the specification's example, each
Record's `metadata` is the producer's map `exMd`, but `exMd` has no
`configSnapshotId` (or `fileVersion`) key — the captured fields sit inside
a fourth key `config_snapshot` — contradicting "contains exactly the
configured captured fields ... and no other keys". -/
theorem C2_counterexample :
    (itemsOf (DecodeAndSplitItems exSpec exIngest exDoc).events).map
        (fun r => mget r "metadata") =
      [some (.obj exMd), some (.obj exMd)] ∧
    mget exMd "configSnapshotId" = none ∧
    mget exMd "fileVersion" = none ∧
    mget exMd "config_snapshot" =
      some (.obj [("fileVersion", .str "1.0"), ("configSnapshotId", .str "abc")]) :=
  ⟨rfl, rfl, rfl, rfl⟩

/-- Claim C2, amended: each Record's `metadata` is the producer's map,
which holds the three fixed provenance fields, a `config_snapshot` entry
whose sub-map is exactly the configured captured fields under their
destination names with values equal to the source document's scalar
strings, and nothing else; the captured fields are nested under
`config_snapshot`, not direct keys of `metadata`. -/
theorem C2_amended_metadata_contents (spec : ItemTransformSpec) (ingest : String)
    (pre : List (String × JVal)) (elems : List Rec)
    (h1 : ∀ p ∈ pre, p.1 ≠ spec.ItemsField)
    (h2 : ∀ p ∈ pre, alookup spec.Fields p.1 = none ∨ ∃ s, p.2 = JVal.str s) :
    (∀ r ∈ itemsOf (DecodeAndSplitItems spec ingest (wfDoc spec pre elems)).events,
      mget r "metadata" =
        some (JVal.obj (captureAll spec (metadataInit ingest) pre))) ∧
    mget (captureAll spec (metadataInit ingest) pre) "event_type" =
      some (.str "config_snapshot") ∧
    mget (captureAll spec (metadataInit ingest) pre) "event_source" =
      some (.str "something_useful") ∧
    mget (captureAll spec (metadataInit ingest) pre) "ingest_time" =
      some (.str ingest) ∧
    csOf (captureAll spec (metadataInit ingest) pre) = capturedOf spec [] pre ∧
    (∀ k, k ≠ "event_type" → k ≠ "event_source" → k ≠ "ingest_time" →
      k ≠ "config_snapshot" →
      mget (captureAll spec (metadataInit ingest) pre) k = none) := by
  refine ⟨?_, ?_, ?_, ?_, ?_, ?_⟩
  · intro r hr
    rw [run_encode spec ingest pre elems h1 h2] at hr
    rw [itemsOf_mapped _ _ _ itemsOf_closes] at hr
    rcases List.mem_map.mp hr with ⟨e, he, hre⟩
    subst hre
    apply enrich_mget_metadata_none
    rw [captureAll_mget_other pre spec _ "metadata" (by decide)]
    exact metadataInit_mget_none ingest "metadata" (by decide) (by decide) (by decide)
  · rw [captureAll_mget_other pre spec _ "event_type" (by decide)]
    exact metadataInit_mget_et ingest
  · rw [captureAll_mget_other pre spec _ "event_source" (by decide)]
    exact metadataInit_mget_es ingest
  · rw [captureAll_mget_other pre spec _ "ingest_time" (by decide)]
    exact metadataInit_mget_it ingest
  · rw [captureAll_csOf pre spec _ (metadataInit_csOk ingest)]
    have h : csOf (metadataInit ingest) = [] := by
      simp [csOf, metadataInit_mget_cs]
    rw [h]
  · intro k hk1 hk2 hk3 hk4
    rw [captureAll_mget_other pre spec _ k hk4]
    exact metadataInit_mget_none ingest k hk1 hk2 hk3

/-- Witness for the amended C2 at the example input: the first record's
metadata is the producer's map, whose provenance entries, captured
sub-map and absence of a top-level `fileVersion` key are as amended. -/
theorem C2_amended_witness :
    mget (enrich (captureAll exSpec (metadataInit exIngest) exPre)
        [("resourceId", JVal.str "r1")]) "metadata" =
      some (JVal.obj (captureAll exSpec (metadataInit exIngest) exPre)) ∧
    mget (captureAll exSpec (metadataInit exIngest) exPre) "event_type" =
      some (.str "config_snapshot") ∧
    mget (captureAll exSpec (metadataInit exIngest) exPre) "event_source" =
      some (.str "something_useful") ∧
    mget (captureAll exSpec (metadataInit exIngest) exPre) "ingest_time" =
      some (.str exIngest) ∧
    csOf (captureAll exSpec (metadataInit exIngest) exPre) =
      capturedOf exSpec [] exPre ∧
    mget (captureAll exSpec (metadataInit exIngest) exPre) "fileVersion" =
      none := by
  have hmain := C2_amended_metadata_contents exSpec exIngest exPre exElems
    (by
      intro p hp
      simp only [exPre, List.mem_cons, List.mem_singleton] at hp
      rcases hp with rfl | rfl | h
      · decide
      · decide
      · simp at h)
    (by
      intro p hp
      simp only [exPre, List.mem_cons, List.mem_singleton] at hp
      rcases hp with rfl | rfl | h
      · exact Or.inr ⟨"1.0", rfl⟩
      · exact Or.inr ⟨"abc", rfl⟩
      · simp at h)
  refine ⟨?_, hmain.2.1, hmain.2.2.1, hmain.2.2.2.1, hmain.2.2.2.2.1,
    hmain.2.2.2.2.2 "fileVersion" (by decide) (by decide) (by decide) (by decide)⟩
  apply hmain.1
  rw [show itemsOf (DecodeAndSplitItems exSpec exIngest
      (wfDoc exSpec exPre exElems)).events =
    [enrich (captureAll exSpec (metadataInit exIngest) exPre)
        [("resourceId", JVal.str "r1")],
      enrich (captureAll exSpec (metadataInit exIngest) exPre)
        [("resourceId", JVal.str "r2")]] from rfl]
  exact List.mem_cons_self _ _

/-- Claim C3 is right about the intent but the code is wrong: on
`{"configurationItems":[5,{"resourceId":"r2"}]}` the loop sends one
ElementDecodeError but, lacking a `continue`, falls through to
`v["metadata"] = metadata` with `v` still a nil map — a runtime panic —
so the goroutine dies and the remaining valid element `{"resourceId":"r2"}`
is never decoded or emitted, instead of being skipped-and-continued. -/
theorem C3_code_bug_panic :
    (DecodeAndSplitItems exSpec exIngest c3Doc).panicked = true ∧
    itemsOf (DecodeAndSplitItems exSpec exIngest c3Doc).events = [] ∧
    (errorsOf (DecodeAndSplitItems exSpec exIngest c3Doc).events).length = 1 :=
  ⟨rfl, rfl, rfl⟩

/-- Claim C4: a well-formed input whose target array holds exactly M
decodable object elements makes the producer emit exactly M Records to
the distribution queue, for every pool size at least 1 (the emission
count does not depend on the pool size). -/
theorem C4_emission_count (spec : ItemTransformSpec) (ingest : String)
    (pre : List (String × JVal)) (elems : List Rec) (poolSize : Nat)
    (hp : 1 ≤ poolSize)
    (h1 : ∀ p ∈ pre, p.1 ≠ spec.ItemsField)
    (h2 : ∀ p ∈ pre, alookup spec.Fields p.1 = none ∨ ∃ s, p.2 = JVal.str s) :
    (itemsOf (DecodeAndSplitItems spec ingest
      (wfDoc spec pre elems)).events).length = elems.length := by
  rw [run_encode spec ingest pre elems h1 h2,
    itemsOf_mapped _ _ _ itemsOf_closes, List.length_map]

/-- Witness for C4 at the example input with pool size 1. -/
theorem C4_witness :
    (itemsOf (DecodeAndSplitItems exSpec exIngest
      (wfDoc exSpec exPre exElems)).events).length = exElems.length := by
  apply C4_emission_count exSpec exIngest exPre exElems 1 (by decide)
  · intro p hp
    simp only [exPre, List.mem_cons, List.mem_singleton] at hp
    rcases hp with rfl | rfl | h
    · decide
    · decide
    · simp at h
  · intro p hp
    simp only [exPre, List.mem_cons, List.mem_singleton] at hp
    rcases hp with rfl | rfl | h
    · exact Or.inr ⟨"1.0", rfl⟩
    · exact Or.inr ⟨"abc", rfl⟩
    · simp at h

/-- Claim C5, counterexample: feeding a number token in field-name
position, the scan does not abort and reports nothing on the error
channel — it continues, reaches the later `configurationItems` field and
still emits its element, where the claim demanded a fatal FieldTypeError
and no further processing. -/
theorem C5_counterexample :
    errorsOf (DecodeAndSplitItems exSpec exIngest c5Doc).events = [] ∧
    (itemsOf (DecodeAndSplitItems exSpec exIngest c5Doc).events).length = 1 :=
  ⟨rfl, rfl⟩

/-- Claim C5, amended: a non-string token in field-name position is not
an error at all — the loop prints it and continues with the next token,
sending nothing on the error channel; the scan state is otherwise
unchanged.  (Reaching this branch requires a token stream the real
tokenizer would not produce in key position: malformed keys surface as
token errors instead, which are fatal.) -/
theorem C5_amended_nonstring_continue (fuel : Nat) (spec : ItemTransformSpec)
    (md : Rec) (t : Token) (rest : List Token)
    (h1 : ∀ s, t ≠ Token.tstr s) (h2 : t ≠ Token.rbrace) (h3 : t ≠ Token.rbrack) :
    scanLoop (fuel + 1) spec md (t :: rest) = scanLoop fuel spec md rest := by
  have hm : more (t :: rest) = true := by simp [more, h2, h3]
  cases t with
  | tstr s => exact absurd rfl (h1 s)
  | lbrace => simp only [scanLoop, hm, if_true]
  | rbrace => exact absurd rfl h2
  | rbrack => exact absurd rfl h3
  | lbrack => simp only [scanLoop, hm, if_true]
  | tnum n => simp only [scanLoop, hm, if_true]
  | tbool b => simp only [scanLoop, hm, if_true]
  | tnull => simp only [scanLoop, hm, if_true]

/-- Witness for the amended C5: the number `7` in field-name position is
consumed and scanning continues. -/
theorem C5_amended_witness :
    scanLoop 4 exSpec [] (Token.tnum 7 ::
      [Token.tstr "configurationItems", Token.lbrack, Token.rbrack, Token.rbrace]) =
    scanLoop 3 exSpec []
      [Token.tstr "configurationItems", Token.lbrack, Token.rbrack, Token.rbrace] :=
  C5_amended_nonstring_continue 3 exSpec [] (Token.tnum 7) _
    (fun s => by simp) (by simp) (by simp)

/-- Claim C6: a captured field whose value is not a scalar string — in
particular an object or array, whose first token is a delimiter — aborts
the top-level scan with one fatal error on the error channel and zero
Records emitted, no matter what follows it in the document (so in
particular before any later array field is reached). -/
theorem C6_nonstring_capture_fatal (spec : ItemTransformSpec) (ingest : String)
    (pre : List (String × JVal)) (bk : String) (bv : JVal) (post : List Token)
    (h1 : ∀ p ∈ pre, p.1 ≠ spec.ItemsField)
    (h2 : ∀ p ∈ pre, alookup spec.Fields p.1 = none ∨ ∃ s, p.2 = JVal.str s)
    (hbk : bk ≠ spec.ItemsField)
    (hcap : (alookup spec.Fields bk).isSome = true)
    (hnstr : ∀ s, bv ≠ JVal.str s) :
    itemsOf (DecodeAndSplitItems spec ingest (Token.lbrace ::
      (encodeFields pre ++ Token.tstr bk :: (encodeVal bv ++ post)))).events = [] ∧
    (errorsOf (DecodeAndSplitItems spec ingest (Token.lbrace ::
      (encodeFields pre ++ Token.tstr bk :: (encodeVal bv ++ post)))).events).length
      = 1 ∧
    (DecodeAndSplitItems spec ingest (Token.lbrace ::
      (encodeFields pre ++ Token.tstr bk :: (encodeVal bv ++ post)))).panicked
      = false := by
  rw [DecodeAndSplitItems_lbrace]
  obtain ⟨msg, hmsg⟩ := scanLoop_badfield pre spec (metadataInit ingest) bk bv post
    ((encodeFields pre ++ Token.tstr bk :: (encodeVal bv ++ post)).length + 1)
    h1 h2 hbk hcap hnstr
    (by
      have := encodeVal_length_pos bv
      simp only [List.length_append, List.length_cons]
      omega)
  rw [hmsg]
  exact ⟨rfl, rfl, rfl⟩

/-- Witness for C6: capturing `fileVersion` whose value is the object
`{"x":"y"}`, with the items array only appearing later in the stream. -/
theorem C6_witness :
    itemsOf (DecodeAndSplitItems exSpec exIngest (Token.lbrace ::
      (encodeFields [] ++ Token.tstr "fileVersion" ::
        (encodeVal (.obj [("x", .str "y")]) ++
          [Token.tstr "configurationItems", Token.lbrack, Token.lbrace,
            Token.rbrace, Token.rbrack, Token.rbrace])))).events = [] ∧
    (errorsOf (DecodeAndSplitItems exSpec exIngest (Token.lbrace ::
      (encodeFields [] ++ Token.tstr "fileVersion" ::
        (encodeVal (.obj [("x", .str "y")]) ++
          [Token.tstr "configurationItems", Token.lbrack, Token.lbrace,
            Token.rbrace, Token.rbrack, Token.rbrace])))).events).length = 1 ∧
    (DecodeAndSplitItems exSpec exIngest (Token.lbrace ::
      (encodeFields [] ++ Token.tstr "fileVersion" ::
        (encodeVal (.obj [("x", .str "y")]) ++
          [Token.tstr "configurationItems", Token.lbrack, Token.lbrace,
            Token.rbrace, Token.rbrack, Token.rbrace])))).panicked = false :=
  C6_nonstring_capture_fatal exSpec exIngest [] "fileVersion"
    (.obj [("x", .str "y")])
    [Token.tstr "configurationItems", Token.lbrack, Token.lbrace, Token.rbrace,
      Token.rbrack, Token.rbrace]
    (fun p hp => by simp at hp) (fun p hp => by simp at hp)
    (by decide) (by decide) (fun s => by simp)

/-- Claim C7: with pool size N at least 1, a run over an M-element
well-formed document produces exactly N WorkerStatus messages — one per
pool member, emitted once when that worker's share of the queue is
exhausted — and under the no-op Writer the ItemCounts of the N statuses
sum to M, whichever way the scheduler distributed the M records over the
workers. -/
theorem C7_worker_statuses (spec : ItemTransformSpec) (ingest : String)
    (pre : List (String × JVal)) (elems : List Rec)
    (h1 : ∀ p ∈ pre, p.1 ≠ spec.ItemsField)
    (h2 : ∀ p ∈ pre, alookup spec.Fields p.1 = none ∨ ∃ s, p.2 = JVal.str s)
    (N : Nat) (hN : 1 ≤ N) (fmtLen : Rec → Nat) (startT endT : Nat → String)
    (dur : Nat → Int) (parts : List (List Rec)) (hlen : parts.length = N)
    (hperm : parts.join.Perm (itemsOf (DecodeAndSplitItems spec ingest
      (wfDoc spec pre elems)).events)) :
    (runPool nullWriter fmtLen startT endT dur parts).length = N ∧
    totalItems (runPool nullWriter fmtLen startT endT dur parts) = elems.length := by
  constructor
  · rw [runPool_length, hlen]
  · rw [runPool_totalItems]
    have hjoin := hperm.length_eq
    rw [List.length_join] at hjoin
    rw [hjoin, run_encode spec ingest pre elems h1 h2,
      itemsOf_mapped _ _ _ itemsOf_closes, List.length_map]

/-- Witness for C7: the example input, pool size 2, with the scheduler
giving every record to worker 0 and none to worker 1. -/
theorem C7_witness :
    (runPool nullWriter (fun _ => 0) (fun _ => "") (fun _ => "") (fun _ => 0)
      [itemsOf (DecodeAndSplitItems exSpec exIngest
        (wfDoc exSpec exPre exElems)).events, []]).length = 2 ∧
    totalItems (runPool nullWriter (fun _ => 0) (fun _ => "") (fun _ => "")
      (fun _ => 0)
      [itemsOf (DecodeAndSplitItems exSpec exIngest
        (wfDoc exSpec exPre exElems)).events, []]) = exElems.length := by
  apply C7_worker_statuses exSpec exIngest exPre exElems _ _ 2 (by decide)
    (fun _ => 0) (fun _ => "") (fun _ => "") (fun _ => 0)
    [itemsOf (DecodeAndSplitItems exSpec exIngest
      (wfDoc exSpec exPre exElems)).events, []] rfl
  · simp
  · intro p hp
    simp only [exPre, List.mem_cons, List.mem_singleton] at hp
    rcases hp with rfl | rfl | h
    · decide
    · decide
    · simp at h
  · intro p hp
    simp only [exPre, List.mem_cons, List.mem_singleton] at hp
    rcases hp with rfl | rfl | h
    · exact Or.inr ⟨"1.0", rfl⟩
    · exact Or.inr ⟨"abc", rfl⟩
    · simp at h

/-- Claim C8: on every input — normal completion and every fatal path of
the top-level scan — the decoding goroutine closes the distribution queue
exactly once, and that closing is the last thing it does, after the scan
has halted and after every record and error has been sent; every worker
therefore drains a finite, closed queue and terminates. -/
theorem C8_queue_closed_once (spec : ItemTransformSpec) (ingest : String)
    (ts : List Token) :
    closeItemsCount (DecodeAndSplitItems spec ingest ts).events = 1 ∧
    (DecodeAndSplitItems spec ingest ts).events.getLast? =
      some Event.closeItems := by
  cases ts with
  | nil => exact ⟨rfl, rfl⟩
  | cons t rest =>
    by_cases ht : t = Token.lbrace
    · subst ht
      rw [DecodeAndSplitItems_lbrace]
      constructor
      · rw [closeItemsCount_append, closeItemsCount_no_close _
          (fun e he => scanLoop_shape _ spec (metadataInit ingest) rest e he)]
        rfl
      · rw [show (scanLoop (rest.length + 1) spec (metadataInit ingest)
              rest).events ++ [Event.closeErrors, Event.closeItems] =
            ((scanLoop (rest.length + 1) spec (metadataInit ingest) rest).events ++
              [Event.closeErrors]) ++ [Event.closeItems] by simp,
          List.getLast?_concat]
    · rw [DecodeAndSplitItems_expect_fail spec ingest t rest ht]
      exact ⟨rfl, rfl⟩

/-- Claim C9: all Records emitted during one run carry the same
`metadata` value — they all reference the single metadata map the
producer built (at most one array split ever runs, and the map is no
longer written while it runs). -/
theorem C9_metadata_identical (spec : ItemTransformSpec) (ingest : String)
    (ts : List Token) :
    ∃ mv : JVal, ∀ r ∈ itemsOf (DecodeAndSplitItems spec ingest ts).events,
      mget r "metadata" = some mv := by
  cases ts with
  | nil =>
    refine ⟨JVal.null, fun r hr => ?_⟩
    rw [mem_itemsOf] at hr
    simp [DecodeAndSplitItems] at hr
  | cons t rest =>
    by_cases ht : t = Token.lbrace
    · subst ht
      rw [DecodeAndSplitItems_lbrace]
      obtain ⟨md2, hmd2⟩ :=
        scanLoop_metadata (rest.length + 1) spec (metadataInit ingest) rest
      refine ⟨(mget md2 "metadata").getD (JVal.obj md2), fun r hr => ?_⟩
      rw [mem_itemsOf] at hr
      rcases List.mem_append.mp hr with h | h
      · obtain ⟨fields, hf2⟩ := hmd2 r h
        rw [hf2, enrich_mget_metadata]
      · simp at h
    · rw [DecodeAndSplitItems_expect_fail spec ingest t rest ht]
      refine ⟨JVal.null, fun r hr => ?_⟩
      rw [mem_itemsOf] at hr
      simp at hr

/-- Claim C10: a worker's terminal status string is "ended normally"
whenever it finishes draining its closed queue share, for every writer —
in particular for an always-failing writer, whose ErrorCount then equals
the number of items it wrote, the status string is unchanged. -/
theorem C10_status_ended_normally (write : Writer) (fmtLen : Rec → Nat)
    (worker : Nat) (startTime endTime : String) (dur : Int) (items : List Rec) :
    (runWorker write fmtLen worker startTime endTime dur items).Status =
      "ended normally" ∧
    (runWorker (fun _ => some "write error") fmtLen worker startTime endTime dur
      items).ErrorCount = items.length ∧
    (runWorker (fun _ => some "write error") fmtLen worker startTime endTime dur
      items).Status = "ended normally" :=
  ⟨rfl, runWorker_errorCount_fail fmtLen "write error" worker startTime endTime dur
    items, rfl⟩

end ConfigDecoder
